import Mathlib

/-!
Verification development for the LaneRunner event-window aggregation engine
(`api/leaderboard.js` and its sibling rewrites).  JavaScript strings are
modelled as `List Char`, JavaScript `BigInt` as `Int`/`Nat`, JavaScript
`Number` as `Option Int` (`none` standing for `NaN` or a non-integral value,
which compares unequal to every integer — the code only ever compares these
fields against known integral period keys), and a thrown JavaScript exception
as `Except.error`.
-/

set_option maxRecDepth 8000

namespace LaneRunner

/-- Hex digit value accepted by JavaScript `BigInt("0x" ++ s)`. -/
def hexDigitVal (c : Char) : Option Nat :=
  if '0' ≤ c ∧ c ≤ '9' then some (c.toNat - '0'.toNat)
  else if 'a' ≤ c ∧ c ≤ 'f' then some (c.toNat - 'a'.toNat + 10)
  else if 'A' ≤ c ∧ c ≤ 'F' then some (c.toNat - 'A'.toNat + 10)
  else none

def parseHexCore : List Char → Nat → Option Nat
  | [], acc => some acc
  | c :: cs, acc =>
    match hexDigitVal c with
    | some d => parseHexCore cs (acc * 16 + d)
    | none => none

/-- `BigInt("0x" ++ l)`: fails (throws) on an empty string or any non-hex
character. -/
def parseHex (l : List Char) : Option Nat :=
  match l with
  | [] => none
  | _ => parseHexCore l 0

/-- `s.startsWith("0x") ? s.slice(2) : s`. -/
def strip0x (s : List Char) : List Char :=
  match s with
  | '0' :: 'x' :: rest => rest
  | _ => s

/-- A decoded contribution: two big-endian `uint256` words. -/
structure Contribution where
  points : Nat
  week : Nat
  deriving DecidableEq, Repr

/-- `extractBytesParamFromLogData` from `api/leaderboard.js` (lines 182-191):
single layout `[offset][length][bytes]`; only the second 32-byte word is ever
parsed.  `Except.error` marks a thrown `BigInt` exception, `Option.none` the
`null` sentinel. -/
def extractBytesParamFromLogData (dataHex : List Char) :
    Except Unit (Option (List Char)) :=
  let hex := strip0x dataHex
  if hex.length < 128 then .ok none
  else
    match parseHex ((hex.drop 64).take 64) with
    | none => .error ()
    | some len =>
      if 128 + len * 2 > hex.length then .ok none
      else .ok (some ('0' :: 'x' :: (hex.drop 128).take (len * 2)))

/-- `decodePointsAndWeek` from `api/leaderboard.js` (lines 194-201). -/
def decodePointsAndWeek (payloadHex : List Char) :
    Except Unit (Option Contribution) :=
  let hex := strip0x payloadHex
  if hex = [] ∨ hex.length < 128 then .ok none
  else
    match parseHex (hex.take 64) with
    | none => .error ()
    | some points =>
      match parseHex ((hex.drop 64).take 64) with
      | none => .error ()
      | some week => .ok (some ⟨points, week⟩)

/-- `decodePointsAndWeek(null)` takes the `payloadHex && ...` branch and
returns `null`. -/
def decodePointsAndWeekO : Option (List Char) → Except Unit (Option Contribution)
  | none => .ok none
  | some s => decodePointsAndWeek s

/-- The decode pipeline applied to one log record:
`decodePointsAndWeek(extractBytesParamFromLogData(l.data))`. -/
def decodePipeline (d : List Char) : Except Unit (Option Contribution) :=
  match extractBytesParamFromLogData d with
  | .error e => .error e
  | .ok p => decodePointsAndWeekO p

/-- `extractBytesParamFromLogData` from the dual-layout rewrite
(`src/unnamed/part_000` lines 833-862): sniffs whether the first 32-byte word
equals 32 (layout `[offset][length][bytes]`) or is a leading timestamp (layout
`[timestamp][offset][length][bytes]`).  In the first branch the source
re-parses `hex.slice(64,128)` as the length; that value is exactly the already
parsed second word `w1`. -/
def extractBytesParamFromLogDataV2 (dataHex : List Char) :
    Except Unit (Option (List Char)) :=
  let hex := strip0x dataHex
  if hex.length < 128 then .ok none
  else
    match parseHex (hex.take 64) with
    | none => .error ()
    | some w0 =>
      match parseHex ((hex.drop 64).take 64) with
      | none => .error ()
      | some w1 =>
        if w0 = 32 then
          if 128 + w1 * 2 > hex.length then .ok none
          else .ok (some ('0' :: 'x' :: (hex.drop 128).take (w1 * 2)))
        else
          let lenPos := w1 * 2
          if lenPos + 64 > hex.length then .ok none
          else
            match parseHex ((hex.drop lenPos).take 64) with
            | none => .error ()
            | some len =>
              if lenPos + 64 + len * 2 > hex.length then .ok none
              else .ok (some ('0' :: 'x' :: (hex.drop (lenPos + 64)).take (len * 2)))

/-- Written from the spec's words: decode `hex` as pure offset-prefixed
dynamic bytes (32-byte offset word, 32-byte length word, then the bytes),
bounds-checking the slice against the remaining hex length. -/
def specPureBytesLayout (hex : List Char) : Option (List Char) :=
  match parseHex ((hex.drop 64).take 64) with
  | none => none
  | some len =>
    if 128 + len * 2 > hex.length then none
    else some ('0' :: 'x' :: (hex.drop 128).take (len * 2))

/-- Written from the spec's words: treat the first 32-byte word as a leading
timestamp, read the dynamic-bytes offset from the second word, then at that
offset read a 32-byte length followed by that many bytes, bounds-checking every
slice against the remaining hex length. -/
def specTimestampBytesLayout (hex : List Char) : Option (List Char) :=
  match parseHex ((hex.drop 64).take 64) with
  | none => none
  | some off =>
    let lenPos := off * 2
    if lenPos + 64 > hex.length then none
    else
      match parseHex ((hex.drop lenPos).take 64) with
      | none => none
      | some len =>
        if lenPos + 64 + len * 2 > hex.length then none
        else some ('0' :: 'x' :: (hex.drop (lenPos + 64)).take (len * 2))

/-- All characters are hex digits (the shape of every data field an RPC
endpoint actually returns). -/
def AllHex (l : List Char) : Prop := ∀ c ∈ l, (hexDigitVal c).isSome

instance (l : List Char) : Decidable (AllHex l) := by
  unfold AllHex; infer_instance

/-! ## ASCII lowercasing (String.prototype.toLowerCase on the hex/address
strings this code handles). -/

def lowerPairs : List (Char × Char) :=
  [('A', 'a'), ('B', 'b'), ('C', 'c'), ('D', 'd'), ('E', 'e'), ('F', 'f'),
   ('G', 'g'), ('H', 'h'), ('I', 'i'), ('J', 'j'), ('K', 'k'), ('L', 'l'),
   ('M', 'm'), ('N', 'n'), ('O', 'o'), ('P', 'p'), ('Q', 'q'), ('R', 'r'),
   ('S', 's'), ('T', 't'), ('U', 'u'), ('V', 'v'), ('W', 'w'), ('X', 'x'),
   ('Y', 'y'), ('Z', 'z')]

def lowerChar (c : Char) : Char :=
  (((lowerPairs.find? (fun p => p.1 = c)).map (fun p => p.2)).getD c)

def lowerStr (s : List Char) : List Char := s.map lowerChar

/-! ## Period totals maps.  A JavaScript `Map` is an insertion-ordered
association list; `Map.set` replaces the value in place when the key exists
and appends otherwise. -/

abbrev Addr := List Char

/-- `m.get(k) || 0n`. -/
def mapGetD (m : List (Addr × Int)) (k : Addr) : Int :=
  (((m.find? (fun p => p.1 = k)).map (fun p => p.2)).getD 0)

/-- `m.set(k, v)`. -/
def mapSet : List (Addr × Int) → Addr → Int → List (Addr × Int)
  | [], k, v => [(k, v)]
  | p :: rest, k, v => if p.1 = k then (k, v) :: rest else p :: mapSet rest k v

/-- `new Map(pairs)`. -/
def mapFromPairs (l : List (Addr × Int)) : List (Addr × Int) :=
  l.foldl (fun acc p => mapSet acc p.1 p.2) []

/-- The comparator `(a, b) => (b[1] > a[1] ? 1 : b[1] < a[1] ? -1 : 0)`
orders entries by descending points; ties keep insertion order (JS sort is
stable), which `List.insertionSort` realizes exactly. -/
def rankLe (a b : Addr × Int) : Prop := b.2 ≤ a.2

instance : DecidableRel rankLe := fun a b => inferInstanceAs (Decidable (b.2 ≤ a.2))

instance : IsTotal (Addr × Int) rankLe := ⟨fun a b => Int.le_total b.2 a.2⟩

instance : IsTrans (Addr × Int) rankLe :=
  ⟨fun _ _ _ h1 h2 => Int.le_trans h2 h1⟩

def sortEntries (m : List (Addr × Int)) : List (Addr × Int) :=
  List.insertionSort rankLe m

structure RankEntry where
  address : Addr
  points : String
  deriving DecidableEq, Repr

/-- `sortMapToArray` (api/leaderboard.js lines 242-247): sort descending by
points, then format points as decimal strings. -/
def sortMapToArray (m : List (Addr × Int)) : List RankEntry :=
  (sortEntries m).map (fun p => ⟨p.1, toString p.2⟩)

def MAX_TOP : Nat := 50
def PRUNE_KEEP : Nat := 250

/-- `pruneToTop` (api/leaderboard.js lines 249-253). -/
def pruneToTop (m : List (Addr × Int)) (keep : Nat) : List (Addr × Int) :=
  mapFromPairs ((sortEntries m).take keep)

/-! ## Aggregation state.  JavaScript numbers are modelled as `Option Int`
(`none` = NaN or a non-integral value; such a value compares (`===`) unequal
to every integral period key, which is the only comparison the code makes
on these fields). -/

abbrev JNum := Option Int

structure WeekEntry where
  weekMs : JNum
  map : List (Addr × Int)
  deriving DecidableEq

structure LState where
  currentWeekMs : JNum
  lastWeekMs : JNum
  lastProcessedBlock : Option Int
  weeks : List WeekEntry
  updatedAt : JNum
  deriving DecidableEq

structure Log where
  topic1 : List Char
  data : List Char
  deriving DecidableEq

/-- JS `String.prototype.slice(start)` with a possibly negative start. -/
def jsSliceFrom (l : List Char) (start : Int) : List Char :=
  let len : Int := l.length
  let s : Int := if start < 0 then max (len + start) 0 else min start len
  l.drop s.toNat

/-- `addrFromTopic` (api/leaderboard.js lines 175-178). -/
def addrFromTopic (topic1 : List Char) : Addr :=
  let t := strip0x topic1
  lowerStr ('0' :: 'x' :: jsSliceFrom t ((t.length : Int) - 40))

/-- One decoded log, as consumed by the aggregation loops: address, points,
week key (the `Number(dec.week)` conversion is exact whenever the value can
match an integral period key at all). -/
def decodeLog (l : Log) : Option (Addr × Nat × Int) :=
  match decodePipeline l.data with
  | .ok (some c) => some (addrFromTopic l.topic1, c.points, (c.week : Int))
  | _ => none

/-- `getOrMakeWeekMap` + `m.set(user, (m.get(user) || 0n) + points)`:
update the first week entry whose key matches, else push a new entry. -/
def addPoints : List WeekEntry → Int → Addr → Nat → List WeekEntry
  | [], wk, u, p => [⟨some wk, [(u, (p : Int))]⟩]
  | w :: rest, wk, u, p =>
    if w.weekMs = some wk then
      ⟨w.weekMs, mapSet w.map u (mapGetD w.map u + (p : Int))⟩ :: rest
    else w :: addPoints rest wk u p

/-- The body of the per-log aggregation loop shared by `backfillTwoWeeks`
and `incrementalUpdate`. -/
def foldLog (cur prev : Int) (weeks : List WeekEntry) (l : Log) : List WeekEntry :=
  match decodeLog l with
  | none => weeks
  | some (u, p, wk) =>
    if wk ≠ cur ∧ wk ≠ prev then weeks
    else addPoints weeks wk u p

def foldLogs (cur prev : Int) (weeks : List WeekEntry) : List Log → List WeekEntry
  | [] => weeks
  | l :: rest => foldLogs cur prev (foldLog cur prev weeks l) rest

/-- Cumulative points of address `u` in the week entry keyed `wk`. -/
def weekTotal (weeks : List WeekEntry) (wk : Int) (u : Addr) : Int :=
  match weeks.find? (fun w => decide (w.weekMs = some wk)) with
  | some w => mapGetD w.map u
  | none => 0

def logPts (l : Log) (wk : Int) (u : Addr) : Int :=
  match decodeLog l with
  | some (u2, p, w2) => if u2 = u ∧ w2 = wk then (p : Int) else 0
  | none => 0

def sumPts (L : List Log) (wk : Int) (u : Addr) : Int :=
  (L.map (fun l => logPts l wk u)).sum

/-! ## Range scanner (`fetchLogsRange`, api/leaderboard.js lines 312-358).
Error-free trace model: every sub-range fetch succeeds, so the
rejection/backoff branches of the source (which do not advance `from`) are
not taken; `clock k` is the `nowMs()` value observed at loop iteration `k`.
The fuel argument equals the iteration-count bound `(toB + 1 - from)`:
the loop advances `from` by at least one block per iteration, so the fuel
is exhausted only when `from > toB`, where the loop would stop anyway. -/

structure ScanEnv where
  oracle : Int → Int → List Log
  clock : Nat → Int
  deadline : Option Int

/-- `if (deadlineMs && nowMs() > deadlineMs) break`. -/
def deadlineHit (env : ScanEnv) (k : Nat) : Bool :=
  match env.deadline with
  | some d => env.clock k > d
  | none => false

structure ScanResult where
  logs : List Log
  nextFrom : Int
  ranges : List (Int × Int)
  deriving DecidableEq

def fetchLogsRangeGo (env : ScanEnv) (toB : Int) (step : Nat) :
    Nat → Int → Nat → List Log → List (Int × Int) → ScanResult
  | 0, fr, _, acc, rgs => ⟨acc, fr, rgs⟩
  | fuel + 1, fr, k, acc, rgs =>
    if fr > toB then ⟨acc, fr, rgs⟩
    else if deadlineHit env k then ⟨acc, fr, rgs⟩
    else
      let t : Int := if fr + (step : Int) > toB then toB else fr + (step : Int)
      fetchLogsRangeGo env toB step fuel (t + 1) (k + 1)
        (acc ++ env.oracle fr t) (rgs ++ [(fr, t)])

def fetchLogsRange (env : ScanEnv) (fromB toB : Int) (step : Nat) : ScanResult :=
  fetchLogsRangeGo env toB step (toB + 1 - fromB).toNat fromB 0 [] []

/-- 7 * 24 * 60 * 60 * 1000. -/
def weekWidthMs : Int := 604800000

/-- An update returns the new state together with the list of sub-ranges it
actually fetched. -/
structure UpdateResult where
  state : LState
  fetched : List (Int × Int)
  deriving DecidableEq

/-- `backfillTwoWeeks` (api/leaderboard.js lines 446-484).  `curWeekMs`
stands for `weekStartUtcMs(now)` and `t2` for the final `nowMs()` written to
`updatedAt`. -/
def backfillTwoWeeks (curWeekMs latest : Int) (env : ScanEnv) (t2 : Int) :
    UpdateResult :=
  let prevWeekMs := curWeekMs - weekWidthMs
  let fromBlock : Int := if latest > 650000 then latest - 650000 else 0
  let scan := fetchLogsRange env fromBlock latest 8000
  let weeks1 := foldLogs curWeekMs prevWeekMs
    [⟨some curWeekMs, []⟩, ⟨some prevWeekMs, []⟩] scan.logs
  ⟨⟨some curWeekMs, some prevWeekMs, some latest,
    weeks1.map (fun w => ⟨w.weekMs, pruneToTop w.map PRUNE_KEEP⟩), some t2⟩,
   scan.ranges⟩

/-- `incrementalUpdate` (api/leaderboard.js lines 486-531).  The cold-start
guard `!existingState || !existingState.lastProcessedBlock ||
existingState.currentWeekMs !== curWeekMs` (note `0n` is falsy). -/
def incrementalUpdate (existing : Option LState) (curWeekMs latest : Int)
    (env : ScanEnv) (t2 : Int) : UpdateResult :=
  match existing with
  | none => backfillTwoWeeks curWeekMs latest env t2
  | some st =>
    match st.lastProcessedBlock with
    | none => backfillTwoWeeks curWeekMs latest env t2
    | some lpb =>
      if lpb = 0 ∨ st.currentWeekMs ≠ some curWeekMs then
        backfillTwoWeeks curWeekMs latest env t2
      else
        let prevWeekMs := curWeekMs - weekWidthMs
        let st1 : LState :=
          { st with currentWeekMs := some curWeekMs, lastWeekMs := some prevWeekMs }
        if lpb + 1 > latest then ⟨{ st1 with updatedAt := some t2 }, []⟩
        else
          let scan := fetchLogsRange env (lpb + 1) latest 8000
          let weeks1 := foldLogs curWeekMs prevWeekMs st1.weeks scan.logs
          let weeks2 := (weeks1.filter (fun w =>
              decide (w.weekMs = some curWeekMs ∨ w.weekMs = some prevWeekMs))).map
              (fun w => ({ weekMs := w.weekMs, map := pruneToTop w.map PRUNE_KEEP } : WeekEntry))
          ⟨⟨some curWeekMs, some prevWeekMs, some latest, weeks2, some t2⟩,
           scan.ranges⟩

/-! ## Initial range partition of `ethGetLogsChunked`
(`src/unnamed/part_002` lines 241-286).  Absent any provider rejection the
worker pool fetches exactly these initially built ranges, each once (the
queue only grows on a rejection). -/

def buildRangesGo (maxSpan : Nat) (toB : Int) : Nat → Int → List (Int × Int)
  | 0, _ => []
  | fuel + 1, f =>
    if f > toB then []
    else
      let t : Int := if f + (maxSpan : Int) > toB then toB else f + (maxSpan : Int)
      (f, t) :: buildRangesGo maxSpan toB fuel (t + 1)

def buildRanges (maxSpan : Nat) (fromB toB : Int) : List (Int × Int) :=
  buildRangesGo maxSpan toB (toB + 1 - fromB).toNat fromB

/-! ## Endpoint rotators.  An attempt's outcome is read from an oracle
indexed by the attempt counter (which URL of the pool serves the attempt is
irrelevant to the retry policy). -/

structure RpcErr where
  status : Nat
  bodyText : List Char
  msg : List Char
  deriving DecidableEq

def startsWithSub : List Char → List Char → Bool
  | _, [] => true
  | [], _ :: _ => false
  | a :: as, b :: bs => a = b && startsWithSub as bs

def containsSub : List Char → List Char → Bool
  | [], needle => needle.isEmpty
  | a :: as, needle => startsWithSub (a :: as) needle || containsSub as needle

/-- `isRateLimitish` (api/leaderboard.js lines 114-122). -/
def isRateLimitish (status : Nat) (bodyText : List Char) : Bool :=
  let t := lowerStr bodyText
  status == 429 || containsSub t ("rate limit").data ||
    containsSub t ("too many requests").data ||
    containsSub t ("over rate limit").data

/-- `isRateLimitish` from `src/unnamed/part_000` (lines 1458-1467), which
additionally matches "quota". -/
def isRateLimitishV2 (status : Nat) (bodyText : List Char) : Bool :=
  let t := lowerStr bodyText
  status == 429 || containsSub t ("rate limit").data ||
    containsSub t ("too many requests").data ||
    containsSub t ("over rate limit").data ||
    containsSub t ("quota").data

/-- The retry-worthy classification of `withRpcRotation`
(api/leaderboard.js lines 163). -/
def transientApi (e : RpcErr) : Bool :=
  isRateLimitish e.status e.bodyText ||
    containsSub (lowerStr e.msg) ("timeout").data ||
    containsSub (lowerStr e.msg) ("fetch failed").data

/-- The `transient` classification of `makeRpcRotator`
(`src/unnamed/part_000` lines 1517-1523). -/
def transientV2 (e : RpcErr) : Bool :=
  isRateLimitishV2 e.status e.bodyText ||
    containsSub (lowerStr e.msg) ("fetch failed").data ||
    containsSub (lowerStr e.msg) ("aborted").data ||
    containsSub (lowerStr e.msg) ("timeout").data ||
    containsSub (lowerStr e.msg) ("socket").data ||
    containsSub (lowerStr e.msg) ("econnreset").data

deriving instance DecidableEq for Except

structure RotResult where
  result : Except RpcErr Nat
  attempts : Nat
  delays : List Nat
  deriving DecidableEq

/-- `withRpcRotation` (api/leaderboard.js lines 148-173): every failure is
followed by another attempt until `tries` is exhausted — transient failures
after a growing `250 * (attempt + 1)` backoff, anything else after a fixed
60ms pause ("move on to next RPC").  On exhaustion the last error is thrown
(`lastErr || new Error("RPC rotation failed")`). -/
def rotApiGo (oracle : Nat → Except RpcErr Nat) :
    Nat → Nat → Option RpcErr → List Nat → RotResult
  | 0, attempt, lastErr, delays =>
    ⟨.error (lastErr.getD ⟨0, [], ("RPC rotation failed").data⟩), attempt, delays⟩
  | rem + 1, attempt, lastErr, delays =>
    match oracle attempt with
    | .ok v => ⟨.ok v, attempt + 1, delays⟩
    | .error e =>
      let d := if transientApi e then 250 * (attempt + 1) else 60
      rotApiGo oracle rem (attempt + 1) (some e) (delays ++ [d])

def rotApi (oracle : Nat → Except RpcErr Nat) (tries : Nat) : RotResult :=
  rotApiGo oracle tries 0 none []

/-- `makeRpcRotator` (`src/unnamed/part_000` lines 1501-1535): the attempt
bound is `min(6, pool * 2)`; a transient failure is retried after
`150 + attempt * 250` ms; any other failure breaks the loop at once and the
last error is thrown. -/
def rotV2Go (oracle : Nat → Except RpcErr Nat) :
    Nat → Nat → Option RpcErr → List Nat → RotResult
  | 0, attempt, lastErr, delays =>
    ⟨.error (lastErr.getD ⟨0, [], ("RPC failed").data⟩), attempt, delays⟩
  | rem + 1, attempt, lastErr, delays =>
    match oracle attempt with
    | .ok v => ⟨.ok v, attempt + 1, delays⟩
    | .error e =>
      if transientV2 e then
        rotV2Go oracle rem (attempt + 1) (some e) (delays ++ [150 + attempt * 250])
      else ⟨.error e, attempt + 1, delays⟩

def rotV2 (oracle : Nat → Except RpcErr Nat) (pool : Nat) : RotResult :=
  rotV2Go oracle (min 6 (pool * 2)) 0 none []

/-! ## Query handler (api/leaderboard.js lines 548-615), as a trace model
over the outcome of each potentially throwing stage.  Name enrichment
(`includeNames`) is an external collaborator and is not modelled. -/

structure RespPayload where
  ok : Bool
  weekStart : JNum
  prevWeekStart : JNum
  weekly : List RankEntry
  lastWeek : List RankEntry
  metaLastProcessedBlock : Option String
  metaUpdatedAt : JNum
  deriving DecidableEq

/-- `formatResponsePayload` (api/leaderboard.js lines 419-444). -/
def formatResponsePayload (st : LState) : RespPayload :=
  let curMap := (((st.weeks.find? (fun x => x.weekMs == st.currentWeekMs)).map
    (fun w => w.map)).getD [])
  let prevMap := (((st.weeks.find? (fun x => x.weekMs == st.lastWeekMs)).map
    (fun w => w.map)).getD [])
  ⟨true, st.currentWeekMs, st.lastWeekMs,
   (sortMapToArray curMap).take MAX_TOP,
   (sortMapToArray prevMap).take MAX_TOP,
   st.lastProcessedBlock.map toString, st.updatedAt⟩

inductive RespBody where
  | payload (p : RespPayload) (busy : Bool)
  | failure (error : List Char) (hint : List Char)
  deriving DecidableEq

structure HttpResponse where
  status : Nat
  body : RespBody
  deriving DecidableEq

def remediationHint : List Char :=
  ("If this persists on Vercel, add Upstash Redis (Storage → Upstash → Upstash for Redis) and/or a stable Base RPC (RPC_URL). Refresh uses incremental logs.").data

/-- Outcome of each stage of one handler invocation; `Except.error` is a
thrown exception (with its message), caught by the handler's single catch. -/
structure HandlerEnv where
  cacheGet : Except (List Char) (Option RespPayload)
  gotLock : Bool
  cacheGet2 : Except (List Char) (Option RespPayload)
  stateGet : Except (List Char) (Option LState)
  updateRes : Except (List Char) LState
  persistRes : Except (List Char) Unit

/-- The catch branch (api/leaderboard.js lines 600-614). -/
def handlerCatch (e : List Char) : HttpResponse :=
  ⟨200, .failure e remediationHint⟩

def handlerCore (env : HandlerEnv) : HttpResponse :=
  match env.stateGet with
  | .error e => handlerCatch e
  | .ok _ =>
    match env.updateRes with
    | .error e => handlerCatch e
    | .ok st =>
      match env.persistRes with
      | .error e => handlerCatch e
      | .ok _ => ⟨200, .payload (formatResponsePayload st) false⟩

def handlerAfterCache (refresh : Bool) (env : HandlerEnv) : HttpResponse :=
  if ¬env.gotLock ∧ ¬refresh then
    match env.cacheGet2 with
    | .error e => handlerCatch e
    | .ok (some c) => ⟨200, .payload c true⟩
    | .ok none => handlerCore env
  else handlerCore env

def handler (refresh : Bool) (env : HandlerEnv) : HttpResponse :=
  if ¬refresh then
    match env.cacheGet with
    | .error e => handlerCatch e
    | .ok (some c) => ⟨200, .payload c false⟩
    | .ok none => handlerAfterCache refresh env
  else handlerAfterCache refresh env

/-! ## Persisted values (`deserializeState`, api/leaderboard.js lines
372-394).  A persisted value is arbitrary JSON-shaped data; `jnull` also
stands for `undefined` (both are falsy, both make `BigInt` throw, and in
this code the only other operations reaching them are guarded by
falsiness checks or an `|| 0` default).  Fractional or exponent-form
numeric strings are conservatively mapped to the non-integral sentinel. -/

inductive JVal where
  | jnull
  | jbool (b : Bool)
  | jnum (n : Int)
  | jstr (s : List Char)
  | jarr (xs : List JVal)
  | jobj (fields : List (String × JVal))

def jsFalsy : JVal → Bool
  | .jnull => true
  | .jbool b => !b
  | .jnum n => n == 0
  | .jstr s => s.isEmpty
  | _ => false

def jsField : JVal → String → JVal
  | .jobj kvs, k => (((kvs.find? (fun p => p.1 == k)).map (fun p => p.2)).getD .jnull)
  | _, _ => .jnull

def jsIndex : JVal → Nat → JVal
  | .jarr xs, i => xs.getD i .jnull
  | _, _ => .jnull

def jsOr (v d : JVal) : JVal := if jsFalsy v then d else v

mutual

/-- `Array.prototype.toString` joins with "," and renders null/undefined
elements as the empty string. -/
def jvalToJoinElem : JVal → List Char
  | .jnull => []
  | .jbool b => (if b then ("true") else ("false")).data
  | .jnum n => (toString n).data
  | .jstr s => s
  | .jarr xs => joinElems xs
  | .jobj _ => ("[object Object]").data

def joinElems : List JVal → List Char
  | [] => []
  | [x] => jvalToJoinElem x
  | x :: y :: rest => jvalToJoinElem x ++ ',' :: joinElems (y :: rest)
end

/-- `String(v)`. -/
def jsToString : JVal → List Char
  | .jnull => ("null").data
  | .jbool b => (if b then ("true") else ("false")).data
  | .jnum n => (toString n).data
  | .jstr s => s
  | .jarr xs => joinElems xs
  | .jobj _ => ("[object Object]").data

def isWsChar (c : Char) : Bool :=
  c = ' ' || c = '\t' || c = '\n' || c = '\r'

def trimWs (l : List Char) : List Char :=
  ((l.dropWhile isWsChar).reverse.dropWhile isWsChar).reverse

def decDigitVal (c : Char) : Option Nat :=
  if '0' ≤ c ∧ c ≤ '9' then some (c.toNat - '0'.toNat) else none

def binDigitVal (c : Char) : Option Nat :=
  if c = '0' then some 0 else if c = '1' then some 1 else none

def octDigitVal (c : Char) : Option Nat :=
  if '0' ≤ c ∧ c ≤ '7' then some (c.toNat - '0'.toNat) else none

def parseBaseCore (f : Char → Option Nat) (base : Nat) :
    List Char → Nat → Option Nat
  | [], acc => some acc
  | c :: cs, acc =>
    match f c with
    | some d => parseBaseCore f base cs (acc * base + d)
    | none => none

def parseBase (f : Char → Option Nat) (base : Nat) (l : List Char) : Option Nat :=
  match l with
  | [] => none
  | _ => parseBaseCore f base l 0

/-- `BigInt(string)`: trimmed; empty means 0; `0x`/`0o`/`0b` radix forms;
else an optionally signed decimal integer; anything else throws. -/
def jsBigIntOfStr (s : List Char) : Option Int :=
  match trimWs s with
  | [] => some 0
  | '0' :: 'x' :: rest => (parseHex rest).map Int.ofNat
  | '0' :: 'X' :: rest => (parseHex rest).map Int.ofNat
  | '0' :: 'b' :: rest => (parseBase binDigitVal 2 rest).map Int.ofNat
  | '0' :: 'B' :: rest => (parseBase binDigitVal 2 rest).map Int.ofNat
  | '0' :: 'o' :: rest => (parseBase octDigitVal 8 rest).map Int.ofNat
  | '0' :: 'O' :: rest => (parseBase octDigitVal 8 rest).map Int.ofNat
  | '-' :: rest => (parseBase decDigitVal 10 rest).map (fun n => -(n : Int))
  | '+' :: rest => (parseBase decDigitVal 10 rest).map Int.ofNat
  | t => (parseBase decDigitVal 10 t).map Int.ofNat

/-- `Number(string)` restricted to the integral outcomes this code can
compare against a period key; every other outcome is the non-integral
sentinel. -/
def jsNumberOfStr (s : List Char) : JNum :=
  match trimWs s with
  | [] => some 0
  | '0' :: 'x' :: rest => (parseHex rest).map Int.ofNat
  | '0' :: 'X' :: rest => (parseHex rest).map Int.ofNat
  | '0' :: 'b' :: rest => (parseBase binDigitVal 2 rest).map Int.ofNat
  | '0' :: 'B' :: rest => (parseBase binDigitVal 2 rest).map Int.ofNat
  | '0' :: 'o' :: rest => (parseBase octDigitVal 8 rest).map Int.ofNat
  | '0' :: 'O' :: rest => (parseBase octDigitVal 8 rest).map Int.ofNat
  | '-' :: rest => (parseBase decDigitVal 10 rest).map (fun n => -(n : Int))
  | '+' :: rest => (parseBase decDigitVal 10 rest).map Int.ofNat
  | t => (parseBase decDigitVal 10 t).map Int.ofNat

/-- `Number(v)`; total (never throws). -/
def jsNumber : JVal → JNum
  | .jnull => some 0
  | .jbool b => some (if b then 1 else 0)
  | .jnum n => some n
  | .jstr s => jsNumberOfStr s
  | .jarr xs => jsNumberOfStr (joinElems xs)
  | .jobj _ => none

/-- `BigInt(v)`; `none` means a thrown exception. -/
def jsBigInt : JVal → Option Int
  | .jnull => none
  | .jbool b => some (if b then 1 else 0)
  | .jnum n => some n
  | .jstr s => jsBigIntOfStr s
  | .jarr xs => jsBigIntOfStr (joinElems xs)
  | .jobj _ => none

/-- `for ... of v`: arrays iterate elements, strings iterate characters,
any other truthy value throws. -/
def jsIterate : JVal → Except Unit (List JVal)
  | .jarr xs => .ok xs
  | .jstr s => .ok (s.map (fun c => .jstr [c]))
  | _ => .error ()

/-- `const [a, b] = el`: destructuring reads the first two iterator values
(missing values become undefined) and throws on a non-iterable. -/
def jsDestructure2 : JVal → Except Unit (JVal × JVal)
  | .jarr xs => .ok (xs.getD 0 .jnull, xs.getD 1 .jnull)
  | .jstr s =>
    .ok ((s.map (fun c => JVal.jstr [c])).getD 0 .jnull,
         (s.map (fun c => JVal.jstr [c])).getD 1 .jnull)
  | _ => .error ()

/-- `for (const [addr, pts] of w.entries) m.set(String(addr).toLowerCase(),
BigInt(pts))`. -/
def buildMap : List JVal → List (Addr × Int) → Except Unit (List (Addr × Int))
  | [], m => .ok m
  | el :: rest, m =>
    match jsDestructure2 el with
    | .error e => .error e
    | .ok (a, p) =>
      match jsBigInt p with
      | none => .error ()
      | some pts => buildMap rest (mapSet m (lowerStr (jsToString a)) pts)

/-- One turn of the `for (const w of [weekA, weekB])` loop. -/
def buildWeekEntry (w : JVal) : Except Unit (Option WeekEntry) :=
  if jsFalsy w || jsFalsy (jsField w "weekMs") || jsFalsy (jsField w "entries") then
    .ok none
  else
    match jsIterate (jsField w "entries") with
    | .error e => .error e
    | .ok items =>
      match buildMap items [] with
      | .error e => .error e
      | .ok m => .ok (some ⟨jsNumber (jsField w "weekMs"), m⟩)

/-- The body of the `try` block of `deserializeState`. -/
def deserializeStateCore (s : JVal) : Except Unit LState :=
  match buildWeekEntry (jsIndex (jsField s "weeks") 0) with
  | .error e => .error e
  | .ok wA =>
    match buildWeekEntry (jsIndex (jsField s "weeks") 1) with
    | .error e => .error e
    | .ok wB =>
      let lpbRaw := jsField s "lastProcessedBlock"
      match (if jsFalsy lpbRaw then some none else (jsBigInt lpbRaw).map some) with
      | none => .error ()
      | some lpb =>
        .ok ⟨jsNumber (jsOr (jsField s "currentWeekMs") (.jnum 0)),
             jsNumber (jsOr (jsField s "lastWeekMs") (.jnum 0)),
             lpb,
             wA.toList ++ wB.toList,
             jsNumber (jsOr (jsField s "updatedAt") (.jnum 0))⟩

/-- `deserializeState`: falsy input gives null; a throw inside the `try`
is caught and gives null. -/
def deserializeState (s : JVal) : Option LState :=
  if jsFalsy s then none
  else
    match deserializeStateCore s with
    | .error _ => none
    | .ok st => some st

/-! ## Concrete instances used by counterexamples and witnesses. -/

def emptyOracle : Int → Int → List Log := fun _ _ => []

/-- A clock whose second reading already exceeds the 5000 deadline. -/
def lateClock : Nat → Int := fun k => if k = 0 then 0 else 10000

def cexEnvC1 : ScanEnv := ⟨emptyOracle, lateClock, some 5000⟩

/-- A scan environment that never hits a deadline and finds no logs. -/
def quietEnv : ScanEnv := ⟨emptyOracle, fun _ => 0, none⟩

def cexStateC1 : LState :=
  ⟨some 0, some (-604800000), some 100,
   [⟨some 0, []⟩, ⟨some (-604800000), []⟩], some 0⟩

/-- A deserializable state whose stored previous-period key (42) is not
`currentWeekMs - weekWidthMs`. -/
def cexStateC4 : LState :=
  ⟨some 0, some 42, some 100, [⟨some 0, [(('0' :: 'x' :: ('a' :: 'a' :: [])), 3)]⟩], some 5⟩

/-- A deserializable state whose single week entry is keyed by 999, a
period key that is neither current nor previous. -/
def cexStateC5 : LState :=
  ⟨some 0, some (-604800000), some 100,
   [⟨some 999, [(('0' :: 'x' :: ['a', 'a']), 3)]⟩], some 0⟩

/-- A small period totals map with a tie on 9 points. -/
def witMapC6 : List (Addr × Int) := [(['a'], 5), (['b'], 9), (['c'], 9)]

/-- An error classified as `clientError`: no rate-limit status or text, no
timeout, no network fault, no range rejection. -/
def clientErr : RpcErr := ⟨400, ("bad request").data, ("rpc error: invalid params").data⟩

/-- A rate-limited error (HTTP 429): transient. -/
def rlErr : RpcErr := ⟨429, [], ("RPC 429").data⟩

/-- Attempt 0 fails with a client error, attempt 1 succeeds. -/
def cexOracleC8 : Nat → Except RpcErr Nat :=
  fun i => if i = 0 then .error clientErr else .ok 7

/-- Attempt 0 is rate limited, every later attempt fails with a client
error. -/
def witOracleC8 : Nat → Except RpcErr Nat :=
  fun i => if i = 0 then .error rlErr else .error clientErr

def cexEnvC9 : HandlerEnv :=
  ⟨.ok none, true, .ok none, .ok none, .error ("boom").data, .ok ()⟩

/-- Log data in the `[offset][length][bytes]` layout carrying a 64-byte
payload that decodes to points 5, week 7. -/
def cexLogData : List Char :=
  List.replicate 64 '0' ++ (List.replicate 62 '0' ++ ['4', '0']) ++
    (List.replicate 63 '0' ++ ['5']) ++ (List.replicate 63 '0' ++ ['7'])

def cexLog : Log :=
  ⟨("0x0000000000000000000000001234567890abcdef1234567890abcdef12345678").data,
   cexLogData⟩

/-! ## Helper lemmas: hex parsing. -/

theorem parseHexCore_isSome (l : List Char) (h : ∀ c ∈ l, (hexDigitVal c).isSome) :
    ∀ acc, (parseHexCore l acc).isSome := by
  induction l with
  | nil => intro acc; simp [parseHexCore]
  | cons c cs ih =>
    intro acc
    have hc := h c (by simp)
    cases hd : hexDigitVal c with
    | some d =>
      simpa [parseHexCore, hd] using ih (fun x hx => h x (by simp [hx])) (acc * 16 + d)
    | none => simp [hd] at hc

theorem parseHex_isSome (l : List Char) (h : ∀ c ∈ l, (hexDigitVal c).isSome)
    (hne : l ≠ []) : (parseHex l).isSome := by
  cases l with
  | nil => exact absurd rfl hne
  | cons c cs => exact parseHexCore_isSome _ h 0

theorem allHex_drop {l : List Char} (h : AllHex l) (n : Nat) : AllHex (l.drop n) :=
  fun c hc => h c (List.mem_of_mem_drop hc)

theorem allHex_take {l : List Char} (h : AllHex l) (n : Nat) : AllHex (l.take n) :=
  fun c hc => h c (List.mem_of_mem_take hc)

theorem slice64_ne_nil {l : List Char} {n : Nat} (h : n + 64 ≤ l.length) :
    (l.drop n).take 64 ≠ [] := by
  apply List.ne_nil_of_length_pos
  simp only [List.length_take, List.length_drop]
  omega

theorem extract_total_on_hex (d : List Char) (h : AllHex (strip0x d)) :
    extractBytesParamFromLogData d = .ok none ∨
    ∃ t, extractBytesParamFromLogData d = .ok (some ('0' :: 'x' :: t)) ∧ AllHex t := by
  unfold extractBytesParamFromLogData
  by_cases hlen : (strip0x d).length < 128
  · left; simp [hlen]
  · push_neg at hlen
    have hs : ((strip0x d).drop 64).take 64 ≠ [] := slice64_ne_nil (by omega)
    have hp : (parseHex (((strip0x d).drop 64).take 64)).isSome :=
      parseHex_isSome _ (allHex_take (allHex_drop h 64) 64) hs
    obtain ⟨len, hlen2⟩ := Option.isSome_iff_exists.mp hp
    by_cases hend : 128 + len * 2 > (strip0x d).length
    · left
      simp [Nat.not_lt.mpr hlen, hlen2, hend]
    · right
      refine ⟨((strip0x d).drop 128).take (len * 2), ?_,
        allHex_take (allHex_drop h 128) _⟩
      simp [Nat.not_lt.mpr hlen, hlen2, hend]

theorem decodePAW_total_on_hex (t : List Char) (h : AllHex t) :
    ∃ r, decodePointsAndWeek ('0' :: 'x' :: t) = .ok r := by
  have hs : strip0x ('0' :: 'x' :: t) = t := rfl
  unfold decodePointsAndWeek
  rw [hs]
  by_cases hlen : t = [] ∨ t.length < 128
  · exact ⟨none, by simp [hlen]⟩
  · push_neg at hlen
    obtain ⟨hne, hlen⟩ := hlen
    have h1 : (parseHex (t.take 64)).isSome := by
      apply parseHex_isSome _ (allHex_take h 64)
      apply List.ne_nil_of_length_pos
      simp only [List.length_take]
      omega
    have h2 : (parseHex ((t.drop 64).take 64)).isSome :=
      parseHex_isSome _ (allHex_take (allHex_drop h 64) 64) (slice64_ne_nil (by omega))
    obtain ⟨p, hp⟩ := Option.isSome_iff_exists.mp h1
    obtain ⟨w, hw⟩ := Option.isSome_iff_exists.mp h2
    exact ⟨some ⟨p, w⟩,
      by simp [Nat.not_lt.mpr (by omega : 128 ≤ t.length), hne, hp, hw]⟩

/-- C2 (counterexample): on a 128-character non-hex data string the decode
pipeline throws (`BigInt("0x" + hex.slice(64,128))` raises a SyntaxError),
so as stated — for arbitrary strings including non-hex ones — the claim
fails. -/
theorem C2_counterexample :
    decodePipeline (List.replicate 128 'z') = .error () := by decide

/-- C2 (amended): for every data string whose characters (after an optional
0x prefix) are hex digits — the shape of every log data field an RPC
endpoint returns — the pipeline `decodePointsAndWeek ∘
extractBytesParamFromLogData` never throws: it yields either a no-value
sentinel or a `{points, week}` pair with `points ≥ 0`. -/
theorem C2_decode_total_on_hex (d : List Char) (h : AllHex (strip0x d)) :
    (∃ r, decodePipeline d = .ok r) ∧
    ∀ c, decodePipeline d = .ok (some c) → 0 ≤ (c.points : Int) := by
  constructor
  · unfold decodePipeline
    rcases extract_total_on_hex d h with he | ⟨t, he, ht⟩
    · exact ⟨none, by rw [he]; rfl⟩
    · rw [he]
      obtain ⟨r, hr⟩ := decodePAW_total_on_hex t ht
      exact ⟨r, by simpa [decodePointsAndWeekO] using hr⟩
  · intro c _
    exact Int.natCast_nonneg c.points

/-- Witness for C2 (amended): a concrete all-hex data string on which the
pipeline returns without throwing. -/
theorem C2_decode_total_on_hex_witness :
    AllHex (strip0x (List.replicate 128 '0')) ∧
    ∃ r, decodePipeline (List.replicate 128 '0') = .ok r :=
  ⟨by decide, (C2_decode_total_on_hex (List.replicate 128 '0') (by decide)).1⟩

/-- C3: the dual-layout extractor detects the layout from the first 32-byte
word (= 32 means pure offset-prefixed dynamic bytes, anything else means a
leading timestamp with the offset in the second word, exactly the two
spec-level layout decoders), returns the no-value sentinel on any length
shortfall, and every returned slice is within the bounds of the hex
string. -/
theorem C3_extract_detects_layout (d : List Char) (h : AllHex (strip0x d)) :
    ((strip0x d).length < 128 → extractBytesParamFromLogDataV2 d = .ok none) ∧
    (∀ w0, 128 ≤ (strip0x d).length → parseHex ((strip0x d).take 64) = some w0 →
      extractBytesParamFromLogDataV2 d =
        .ok (if w0 = 32 then specPureBytesLayout (strip0x d)
             else specTimestampBytesLayout (strip0x d))) ∧
    (∀ s, extractBytesParamFromLogDataV2 d = .ok (some s) →
      ∃ st ln, s = '0' :: 'x' :: ((strip0x d).drop st).take ln ∧
        st + ln ≤ (strip0x d).length) := by
  refine ⟨fun hlt => by unfold extractBytesParamFromLogDataV2; simp [hlt], ?_, ?_⟩
  · intro w0 hge hw0
    have hw1 : (parseHex (((strip0x d).drop 64).take 64)).isSome :=
      parseHex_isSome _ (allHex_take (allHex_drop h 64) 64) (slice64_ne_nil (by omega))
    obtain ⟨w1, hw1⟩ := Option.isSome_iff_exists.mp hw1
    unfold extractBytesParamFromLogDataV2 specPureBytesLayout specTimestampBytesLayout
    rw [if_neg (Nat.not_lt.mpr hge)]
    simp only [hw0, hw1]
    by_cases h32 : w0 = 32
    · simp only [h32, if_pos]
      split <;> rfl
    · rw [if_neg h32, if_neg h32]
      by_cases hpos : w1 * 2 + 64 > (strip0x d).length
      · simp [hpos]
      · push_neg at hpos
        have hl : (parseHex (((strip0x d).drop (w1 * 2)).take 64)).isSome :=
          parseHex_isSome _ (allHex_take (allHex_drop h _) 64)
            (slice64_ne_nil (by omega))
        obtain ⟨len, hlen⟩ := Option.isSome_iff_exists.mp hl
        simp only [Nat.not_lt.mpr hpos, hlen, gt_iff_lt, if_false]
        split <;> rfl
  · intro s hs
    by_cases hlt : (strip0x d).length < 128
    · rw [(by unfold extractBytesParamFromLogDataV2; simp [hlt] :
        extractBytesParamFromLogDataV2 d = .ok none)] at hs
      simp at hs
    · push_neg at hlt
      have hw0 : (parseHex ((strip0x d).take 64)).isSome := by
        apply parseHex_isSome _ (allHex_take h 64)
        apply List.ne_nil_of_length_pos
        simp only [List.length_take]
        omega
      obtain ⟨w0, hw0⟩ := Option.isSome_iff_exists.mp hw0
      have hw1 : (parseHex (((strip0x d).drop 64).take 64)).isSome :=
        parseHex_isSome _ (allHex_take (allHex_drop h 64) 64) (slice64_ne_nil (by omega))
      obtain ⟨w1, hw1⟩ := Option.isSome_iff_exists.mp hw1
      unfold extractBytesParamFromLogDataV2 at hs
      rw [if_neg (Nat.not_lt.mpr hlt)] at hs
      simp only [hw0, hw1] at hs
      by_cases h32 : w0 = 32
      · rw [if_pos h32] at hs
        by_cases hend : 128 + w1 * 2 > (strip0x d).length
        · rw [if_pos hend] at hs; simp at hs
        · rw [if_neg hend] at hs
          push_neg at hend
          refine ⟨128, w1 * 2, ?_, by omega⟩
          simpa using hs.symm
      · rw [if_neg h32] at hs
        by_cases hpos : w1 * 2 + 64 > (strip0x d).length
        · rw [if_pos hpos] at hs; simp at hs
        · rw [if_neg hpos] at hs
          push_neg at hpos
          have hl : (parseHex (((strip0x d).drop (w1 * 2)).take 64)).isSome :=
            parseHex_isSome _ (allHex_take (allHex_drop h _) 64)
              (slice64_ne_nil (by omega))
          obtain ⟨len, hlen⟩ := Option.isSome_iff_exists.mp hl
          simp only [hlen] at hs
          by_cases hend : w1 * 2 + 64 + len * 2 > (strip0x d).length
          · rw [if_pos hend] at hs; simp at hs
          · rw [if_neg hend] at hs
            push_neg at hend
            refine ⟨w1 * 2 + 64, len * 2, ?_, by omega⟩
            simpa using hs.symm

/-! ## Helper lemmas: maps and the aggregation fold. -/

theorem mapGetD_mapSet_self (m : List (Addr × Int)) (k : Addr) (v : Int) :
    mapGetD (mapSet m k v) k = v := by
  induction m with
  | nil => simp [mapSet, mapGetD, List.find?]
  | cons p rest ih =>
    by_cases hp : p.1 = k
    · simp [mapSet, hp, mapGetD, List.find?]
    · simpa [mapSet, hp, mapGetD, List.find?] using ih

theorem mapGetD_mapSet_ne (m : List (Addr × Int)) (k : Addr) (v : Int) (k2 : Addr)
    (h : k2 ≠ k) : mapGetD (mapSet m k v) k2 = mapGetD m k2 := by
  have hkk : ¬(k = k2) := fun he => h he.symm
  induction m with
  | nil => simp [mapSet, mapGetD, List.find?, hkk]
  | cons p rest ih =>
    by_cases hp : p.1 = k
    · have hp2 : ¬(p.1 = k2) := by rw [hp]; exact hkk
      simp [mapSet, hp, mapGetD, List.find?, hkk, hp2]
    · by_cases hp2 : p.1 = k2
      · simp [mapSet, hp, mapGetD, List.find?, hp2, h]
      · simpa [mapSet, hp, mapGetD, List.find?, hp2] using ih

theorem mapSet_mem (m : List (Addr × Int)) (k : Addr) (v : Int) :
    ∀ kv ∈ mapSet m k v, kv ∈ m ∨ kv = (k, v) := by
  induction m with
  | nil => simp [mapSet]
  | cons p rest ih =>
    intro kv hkv
    by_cases hp : p.1 = k
    · simp only [mapSet, if_pos hp, List.mem_cons] at hkv
      rcases hkv with h1 | h1
      · right; exact h1
      · left; exact List.mem_cons_of_mem _ h1
    · simp only [mapSet, if_neg hp, List.mem_cons] at hkv
      rcases hkv with h1 | h1
      · left; subst h1; exact List.mem_cons_self _ _
      · rcases ih kv h1 with h2 | h2
        · left; exact List.mem_cons_of_mem _ h2
        · right; exact h2

theorem mapSet_of_not_mem (m : List (Addr × Int)) (k : Addr) (v : Int)
    (h : k ∉ m.map Prod.fst) : mapSet m k v = m ++ [(k, v)] := by
  induction m with
  | nil => simp [mapSet]
  | cons p rest ih =>
    simp only [List.map_cons, List.mem_cons] at h
    push_neg at h
    have hp : ¬(p.1 = k) := fun he => h.1 (Eq.symm he)
    simp only [mapSet, if_neg hp, List.cons_append, List.cons.injEq, true_and]
    exact ih h.2

theorem weekTotal_addPoints_self (w : List WeekEntry) (wk : Int) (u : Addr) (p : Nat) :
    weekTotal (addPoints w wk u p) wk u = weekTotal w wk u + p := by
  induction w with
  | nil => simp [addPoints, weekTotal, List.find?, mapGetD]
  | cons w0 rest ih =>
    by_cases h0 : w0.weekMs = some wk
    · simp [addPoints, h0, weekTotal, List.find?, mapGetD_mapSet_self]
    · simpa [addPoints, h0, weekTotal, List.find?] using ih

theorem weekTotal_addPoints_ne (w : List WeekEntry) (wk : Int) (u : Addr) (p : Nat)
    (wk2 : Int) (u2 : Addr) (h : wk2 ≠ wk ∨ u2 ≠ u) :
    weekTotal (addPoints w wk u p) wk2 u2 = weekTotal w wk2 u2 := by
  induction w with
  | nil =>
    by_cases hw : wk = wk2
    · subst hw
      have hu : u2 ≠ u := h.resolve_left (fun hc => hc rfl)
      have hu2 : ¬(u = u2) := fun he => hu he.symm
      simp [addPoints, weekTotal, List.find?, mapGetD, hu2]
    · have hw2 : ¬((some wk : JNum) = some wk2) :=
        fun he => hw (Option.some_inj.mp he)
      simp [addPoints, weekTotal, List.find?, hw2]
  | cons w0 rest ih =>
    by_cases h0 : w0.weekMs = some wk
    · by_cases hw : wk = wk2
      · subst hw
        have hu : u2 ≠ u := h.resolve_left (fun hc => hc rfl)
        simp [addPoints, h0, weekTotal, List.find?, mapGetD_mapSet_ne _ _ _ _ hu]
      · have hw2 : ¬(w0.weekMs = some wk2) := by
          rw [h0]; exact fun he => hw (Option.some_inj.mp he)
        simp [addPoints, h0, weekTotal, List.find?, hw2, hw]
    · by_cases h2 : w0.weekMs = some wk2
      · by_cases hww : wk2 = wk
        · exact absurd (hww ▸ h2) h0
        · simp [addPoints, h0, weekTotal, List.find?, h2, hww]
      · simpa [addPoints, h0, weekTotal, List.find?, h2] using ih

theorem keys_addPoints (w : List WeekEntry) (wk : Int) (u : Addr) (p : Nat) :
    ∀ k ∈ (addPoints w wk u p).map (fun e => e.weekMs),
      k ∈ w.map (fun e => e.weekMs) ∨ k = some wk := by
  induction w with
  | nil => intro k hk; right; simpa [addPoints] using hk
  | cons w0 rest ih =>
    intro k hk
    by_cases h0 : w0.weekMs = some wk
    · left
      simpa [addPoints, h0] using hk
    · simp only [addPoints, if_neg h0, List.map_cons, List.mem_cons] at hk
      rcases hk with h1 | h1
      · left
        simp only [List.map_cons, List.mem_cons]
        left; exact h1
      · rcases ih k h1 with h2 | h2
        · left
          simp only [List.map_cons, List.mem_cons]
          right; exact h2
        · right; exact h2

theorem weekTotal_foldLog (cur prev : Int) (w : List WeekEntry) (l : Log)
    (wk : Int) (u : Addr) (hwk : wk = cur ∨ wk = prev) :
    weekTotal (foldLog cur prev w l) wk u = weekTotal w wk u + logPts l wk u := by
  cases hd : decodeLog l with
  | none => simp [foldLog, logPts, hd]
  | some t =>
    obtain ⟨u2, p, w2⟩ := t
    by_cases hskip : w2 ≠ cur ∧ w2 ≠ prev
    · have hne : w2 ≠ wk := by
        rcases hwk with h | h
        · rw [h]; exact hskip.1
        · rw [h]; exact hskip.2
      simp [foldLog, logPts, hd, hskip, hne]
    · by_cases hhit : u2 = u ∧ w2 = wk
      · obtain ⟨hu, hw⟩ := hhit
        subst hu; subst hw
        simp [foldLog, logPts, hd, hskip, weekTotal_addPoints_self]
      · have hor : wk ≠ w2 ∨ u ≠ u2 := by
          by_cases hu : u2 = u
          · left; intro hc; exact hhit ⟨hu, hc.symm⟩
          · right; exact fun hc => hu hc.symm
        simp [foldLog, logPts, hd, hskip, hhit,
          weekTotal_addPoints_ne _ _ _ _ _ _ hor]

theorem weekTotal_foldLogs (cur prev : Int) (L : List Log) :
    ∀ (w : List WeekEntry) (wk : Int) (u : Addr), wk = cur ∨ wk = prev →
      weekTotal (foldLogs cur prev w L) wk u = weekTotal w wk u + sumPts L wk u := by
  induction L with
  | nil => intro w wk u _; simp [foldLogs, sumPts]
  | cons l rest ih =>
    intro w wk u hwk
    have h1 := ih (foldLog cur prev w l) wk u hwk
    have h2 := weekTotal_foldLog cur prev w l wk u hwk
    simp only [foldLogs, h1, h2, sumPts, List.map_cons, List.sum_cons]
    ring

theorem keys_foldLogs (cur prev : Int) (L : List Log) :
    ∀ (w : List WeekEntry), ∀ k ∈ (foldLogs cur prev w L).map (fun e => e.weekMs),
      k ∈ w.map (fun e => e.weekMs) ∨ k = some cur ∨ k = some prev := by
  induction L with
  | nil => intro w k hk; left; simpa [foldLogs] using hk
  | cons l rest ih =>
    intro w k hk
    have h1 := ih (foldLog cur prev w l) k (by simpa [foldLogs] using hk)
    rcases h1 with h1 | h1
    · cases hd : decodeLog l with
      | none => left; simpa [foldLog, hd] using h1
      | some t =>
        obtain ⟨u2, p, w2⟩ := t
        by_cases hskip : w2 ≠ cur ∧ w2 ≠ prev
        · left; simpa [foldLog, hd, hskip] using h1
        · simp only [foldLog, hd, if_neg hskip] at h1
          rcases keys_addPoints w w2 u2 p k h1 with h2 | h2
          · left; exact h2
          · right
            rcases not_and_or.mp hskip with h3 | h3 <;>
              simp only [not_not] at h3 <;> simp [h2, h3]
    · right; exact h1

theorem foldLogs_skip (cur prev : Int) (w : List WeekEntry) (u : Addr) (p : Nat)
    (wk : Int) (l : Log) (rest : List Log) (hd : decodeLog l = some (u, p, wk))
    (h1 : wk ≠ cur) (h2 : wk ≠ prev) :
    foldLogs cur prev w (l :: rest) = foldLogs cur prev w rest := by
  simp [foldLogs, foldLog, hd, h1, h2]

/-- Witness for C3: a concrete all-hex data string with a long-enough body;
the first word is 0 (not 32), so the timestamp layout decoder applies. -/
theorem C3_extract_detects_layout_witness :
    AllHex (strip0x (List.replicate 128 '0')) ∧
    extractBytesParamFromLogDataV2 (List.replicate 128 '0') =
      .ok (specTimestampBytesLayout (strip0x (List.replicate 128 '0'))) := by
  refine ⟨by decide, ?_⟩
  have h := (C3_extract_detects_layout (List.replicate 128 '0') (by decide)).2.1
    0 (by decide) (by decide)
  simpa using h

/-! ## Helper lemmas: the range scanner trace. -/

theorem fetchLogsRangeGo_ranges_bound (env : ScanEnv) (toB : Int) (step : Nat)
    (a : Int) :
    ∀ (fuel : Nat) (fr : Int) (k : Nat) (acc : List Log) (rgs : List (Int × Int)),
      a ≤ fr → (∀ r ∈ rgs, a ≤ r.1 ∧ r.2 ≤ toB) →
      ∀ r ∈ (fetchLogsRangeGo env toB step fuel fr k acc rgs).ranges,
        a ≤ r.1 ∧ r.2 ≤ toB := by
  intro fuel
  induction fuel with
  | zero =>
    intro fr k acc rgs hfr hrgs r hr
    exact hrgs r (by simpa [fetchLogsRangeGo] using hr)
  | succ n ih =>
    intro fr k acc rgs hfr hrgs r hr
    have hs0 : (0 : Int) ≤ (step : Int) := Int.natCast_nonneg step
    by_cases h1 : fr > toB
    · exact hrgs r (by simpa [fetchLogsRangeGo, h1] using hr)
    · by_cases h2 : deadlineHit env k
      · exact hrgs r (by simpa [fetchLogsRangeGo, h1, h2] using hr)
      · by_cases hc : fr + (step : Int) > toB
        · have hr2 : r ∈ (fetchLogsRangeGo env toB step n (toB + 1) (k + 1)
              (acc ++ env.oracle fr toB) (rgs ++ [(fr, toB)])).ranges := by
            simpa [fetchLogsRangeGo, h1, h2, hc] using hr
          refine ih (toB + 1) (k + 1) _ _ (by omega) ?_ r hr2
          intro r2 hm
          rcases List.mem_append.mp hm with hm | hm
          · exact hrgs r2 hm
          · have he : r2 = (fr, toB) := by simpa using hm
            subst he
            exact ⟨hfr, le_refl _⟩
        · have hr2 : r ∈ (fetchLogsRangeGo env toB step n (fr + (step : Int) + 1)
              (k + 1) (acc ++ env.oracle fr (fr + (step : Int)))
              (rgs ++ [(fr, fr + (step : Int))])).ranges := by
            simpa [fetchLogsRangeGo, h1, h2, hc] using hr
          refine ih (fr + (step : Int) + 1) (k + 1) _ _ (by omega) ?_ r hr2
          intro r2 hm
          rcases List.mem_append.mp hm with hm | hm
          · exact hrgs r2 hm
          · have he : r2 = (fr, fr + (step : Int)) := by simpa using hm
            subst he
            exact ⟨hfr, by omega⟩

theorem keys_backfill (cur latest : Int) (env : ScanEnv) (t2 : Int) :
    ∀ w ∈ (backfillTwoWeeks cur latest env t2).state.weeks,
      w.weekMs = some cur ∨ w.weekMs = some (cur - weekWidthMs) := by
  intro w hw
  unfold backfillTwoWeeks at hw
  simp only [List.mem_map] at hw
  obtain ⟨w1, hw1, hmap⟩ := hw
  have hk := keys_foldLogs cur (cur - weekWidthMs) _
    [⟨some cur, []⟩, ⟨some (cur - weekWidthMs), []⟩] w1.weekMs
    (List.mem_map_of_mem _ hw1)
  have hwm : w.weekMs = w1.weekMs := by rw [← hmap]
  rcases hk with hk | hk | hk
  · simp only [List.map_cons, List.map_nil, List.mem_cons, List.mem_singleton] at hk
    rcases hk with hk | hk | hk
    · left; rw [hwm, hk]
    · right; rw [hwm, hk]
    · exact absurd hk (by simp)
  · left; rw [hwm, hk]
  · right; rw [hwm, hk]

/-- C1 (counterexample): a warm update whose scan covers only blocks
101..8101 before the 5000ms deadline expires at the second loop iteration
(latest = 25000) still stores `lastProcessedBlock = 25000`, past every
skipped block — the claim that it advances only to the highest covered
block is false. -/
theorem C1_counterexample :
    (incrementalUpdate (some cexStateC1) 0 25000 cexEnvC1 7).fetched =
      [(101, 8101)] ∧
    (fetchLogsRange cexEnvC1 101 25000 8000).nextFrom = 8102 ∧
    (incrementalUpdate (some cexStateC1) 0 25000 cexEnvC1 7).state.lastProcessedBlock
      = some 25000 ∧
    ((8101 : Int) < 25000) := by decide

/-- C1 (amended): when the deadline cuts a warm scan short, the
contributions already fetched are kept — they are folded into the period
totals (pre-prune totals grow by exactly the fetched per-address sums) and
the folded, filtered, pruned maps are what the update stores — but
`lastProcessedBlock` is set to the latest block observed at scan start
(both in the warm path and in a backfill), even past blocks the truncated
scan never covered. -/
theorem C1_partial_scan (st : LState) (cur latest lpb : Int) (env : ScanEnv)
    (t2 : Int) (h1 : st.lastProcessedBlock = some lpb) (h2 : lpb ≠ 0)
    (h3 : st.currentWeekMs = some cur) (h4 : lpb + 1 ≤ latest)
    (h5 : ∀ l ∈ (fetchLogsRange env (lpb + 1) latest 8000).logs,
      ∀ e : Unit, decodePipeline l.data ≠ .error e) :
    (incrementalUpdate (some st) cur latest env t2).state.lastProcessedBlock
      = some latest ∧
    (incrementalUpdate (some st) cur latest env t2).fetched =
      (fetchLogsRange env (lpb + 1) latest 8000).ranges ∧
    (incrementalUpdate (some st) cur latest env t2).state.weeks =
      ((foldLogs cur (cur - weekWidthMs) st.weeks
          (fetchLogsRange env (lpb + 1) latest 8000).logs).filter (fun w =>
        decide (w.weekMs = some cur ∨ w.weekMs = some (cur - weekWidthMs)))).map
        (fun w => ({ weekMs := w.weekMs, map := pruneToTop w.map PRUNE_KEEP } :
          WeekEntry)) ∧
    (∀ u wk, wk = cur ∨ wk = cur - weekWidthMs →
      weekTotal (foldLogs cur (cur - weekWidthMs) st.weeks
          (fetchLogsRange env (lpb + 1) latest 8000).logs) wk u =
        weekTotal st.weeks wk u +
          sumPts (fetchLogsRange env (lpb + 1) latest 8000).logs wk u) ∧
    (backfillTwoWeeks cur latest env t2).state.lastProcessedBlock = some latest := by
  have hguard : ¬(lpb = 0 ∨ st.currentWeekMs ≠ some cur) := by
    simp [h2, h3]
  have hrange : ¬(lpb + 1 > latest) := by omega
  refine ⟨?_, ?_, ?_, ?_, rfl⟩
  · simp [incrementalUpdate, h1, hguard, hrange]
  · simp [incrementalUpdate, h1, hguard, hrange]
  · simp [incrementalUpdate, h1, hguard, hrange]
  · intro u wk hwk
    exact weekTotal_foldLogs cur (cur - weekWidthMs) _ st.weeks wk u hwk

/-- Witness for C1 (amended): a warm update over 101..200 with no deadline
and an empty log feed. -/
theorem C1_partial_scan_witness :
    (incrementalUpdate (some cexStateC1) 0 200 quietEnv 7).state.lastProcessedBlock
      = some 200 ∧
    (incrementalUpdate (some cexStateC1) 0 200 quietEnv 7).fetched =
      (fetchLogsRange quietEnv 101 200 8000).ranges := by
  have h := C1_partial_scan cexStateC1 0 200 100 quietEnv 7 rfl (by decide) rfl
    (by decide) (by decide)
  exact ⟨h.1, h.2.1⟩

/-- C4 (counterexample): a warm state whose stored previous-period key (42)
differs from `currentWeekMs - weekWidthMs`; the empty-range update
(lastProcessedBlock = latest = 100) overwrites it with the recomputed key,
so it does not leave all period keys unchanged. -/
theorem C4_counterexample :
    (incrementalUpdate (some cexStateC4) 0 100 quietEnv 99).state.lastWeekMs =
      some (-604800000) ∧
    cexStateC4.lastWeekMs = some 42 ∧
    (incrementalUpdate (some cexStateC4) 0 100 quietEnv 99).fetched = [] ∧
    ((some (-604800000) : JNum) ≠ some 42) := by decide

/-- C4 (amended): in warm-incremental mode, when additionally the stored
previous-period key equals `currentWeekMs - weekWidthMs` (an invariant of
every state the code itself writes), an empty range `lastProcessedBlock + 1
> latest` updates only `updatedAt` and fetches nothing; and every fetched
sub-range lies inside `[lastProcessedBlock + 1, latest]`, so no block range
is ever re-applied. -/
theorem C4_warm_no_advance (st : LState) (cur latest lpb : Int) (env : ScanEnv)
    (t2 : Int) (h1 : st.lastProcessedBlock = some lpb) (h2 : lpb ≠ 0)
    (h3 : st.currentWeekMs = some cur)
    (h4 : st.lastWeekMs = some (cur - weekWidthMs)) :
    (latest < lpb + 1 →
      incrementalUpdate (some st) cur latest env t2 =
        ⟨{ st with updatedAt := some t2 }, []⟩) ∧
    (∀ r ∈ (incrementalUpdate (some st) cur latest env t2).fetched,
      lpb + 1 ≤ r.1 ∧ r.2 ≤ latest) := by
  have hguard : ¬(lpb = 0 ∨ st.currentWeekMs ≠ some cur) := by
    simp [h2, h3]
  constructor
  · intro hlt
    have hrange : lpb + 1 > latest := by omega
    simp only [incrementalUpdate, h1, if_neg hguard, if_pos hrange, h3, h4]
    simp [h2]
  · by_cases hrange : lpb + 1 > latest
    · intro r hr
      simp only [incrementalUpdate, h1, if_neg hguard, if_pos hrange] at hr
      simp at hr
    · intro r hr
      simp only [incrementalUpdate, h1, if_neg hguard, if_neg hrange] at hr
      exact fetchLogsRangeGo_ranges_bound env latest 8000 (lpb + 1) _ (lpb + 1) 0
        [] [] (le_refl _) (by simp) r hr

/-- Witness for C4 (amended): at latest = 50 < lastProcessedBlock + 1 = 101
the update only rewrites `updatedAt` and fetches nothing. -/
theorem C4_warm_no_advance_witness :
    incrementalUpdate (some cexStateC1) 0 50 quietEnv 7 =
      ⟨{ cexStateC1 with updatedAt := some 7 }, []⟩ := by
  have h := C4_warm_no_advance cexStateC1 0 50 100 quietEnv 7 rfl (by decide) rfl
    (by decide)
  exact h.1 (by decide)

/-- C5 (counterexample): a deserializable warm state carrying a week entry
for period 999 survives an empty-range update untouched, so the updated
state does not contain maps only for the current and previous periods. -/
theorem C5_counterexample :
    (incrementalUpdate (some cexStateC5) 0 100 quietEnv 7).state.weeks =
      [⟨some 999, [(('0' :: 'x' :: ['a', 'a']), 3)]⟩] ∧
    ((some 999 : JNum) ≠ some 0) ∧
    ((some 999 : JNum) ≠ some (0 - weekWidthMs)) := by decide

/-- C5 (amended): provided every week entry of the incoming state is keyed
by the current or previous period (the invariant every state the code
itself writes satisfies), the updated state contains maps only for those
two period keys; and a decoded record whose periodKey matches neither
tracked period is fully ignored by the fold — no entry is created anywhere
and no error is raised. -/
theorem C5_two_periods (existing : Option LState) (cur latest : Int)
    (env : ScanEnv) (t2 : Int)
    (hwf : ∀ st, existing = some st → ∀ w ∈ st.weeks,
      w.weekMs = some cur ∨ w.weekMs = some (cur - weekWidthMs)) :
    (∀ w ∈ (incrementalUpdate existing cur latest env t2).state.weeks,
      w.weekMs = some cur ∨ w.weekMs = some (cur - weekWidthMs)) ∧
    (∀ (weeks : List WeekEntry) (u : Addr) (p : Nat) (wk : Int) (l : Log)
      (rest : List Log), decodeLog l = some (u, p, wk) → wk ≠ cur →
      wk ≠ cur - weekWidthMs →
      foldLogs cur (cur - weekWidthMs) weeks (l :: rest) =
        foldLogs cur (cur - weekWidthMs) weeks rest) := by
  constructor
  · cases existing with
    | none => exact keys_backfill cur latest env t2
    | some st =>
      cases hlpb : st.lastProcessedBlock with
      | none =>
        simpa [incrementalUpdate, hlpb] using keys_backfill cur latest env t2
      | some lpb =>
        by_cases hguard : lpb = 0 ∨ st.currentWeekMs ≠ some cur
        · simpa [incrementalUpdate, hlpb, hguard] using
            keys_backfill cur latest env t2
        · by_cases hrange : lpb + 1 > latest
          · intro w hw
            simp only [incrementalUpdate, hlpb, if_neg hguard, if_pos hrange] at hw
            exact hwf st rfl w hw
          · intro w hw
            simp only [incrementalUpdate, hlpb, if_neg hguard, if_neg hrange] at hw
            simp only [List.mem_map, List.mem_filter] at hw
            obtain ⟨w1, ⟨_, hcond⟩, hmap⟩ := hw
            have hc := of_decide_eq_true hcond
            rcases hc with hc | hc
            · left; rw [← hmap]; exact hc
            · right; rw [← hmap]; exact hc
  · intro weeks u p wk l rest hd hne1 hne2
    exact foldLogs_skip cur (cur - weekWidthMs) weeks u p wk l rest hd hne1 hne2

/-- Witness for C5 (amended): a well-formed warm state keeps only the two
tracked periods, and a concrete out-of-period record (week key 7) is
ignored by the fold. -/
theorem C5_two_periods_witness :
    (∀ w ∈ (incrementalUpdate (some cexStateC1) 0 100 quietEnv 7).state.weeks,
      w.weekMs = some 0 ∨ w.weekMs = some (0 - weekWidthMs)) ∧
    foldLogs 0 (0 - weekWidthMs) [] [cexLog] = foldLogs 0 (0 - weekWidthMs) [] [] := by
  have h := C5_two_periods (some cexStateC1) 0 100 quietEnv 7
    (by intro st hst; cases hst; decide)
  exact ⟨h.1, h.2 [] (addrFromTopic cexLog.topic1) 5 7 cexLog []
    (by decide) (by decide) (by decide)⟩

/-! ## Helper lemmas: sorting and pruning. -/

theorem mapFromPairs_eq_self (l : List (Addr × Int))
    (h : (l.map Prod.fst).Nodup) : mapFromPairs l = l := by
  suffices haux : ∀ (l2 acc : List (Addr × Int)),
      (((acc ++ l2).map Prod.fst)).Nodup →
      l2.foldl (fun acc p => mapSet acc p.1 p.2) acc = acc ++ l2 by
    simpa [mapFromPairs] using haux l [] (by simpa using h)
  intro l2
  induction l2 with
  | nil => intro acc _; simp
  | cons p rest ih =>
    intro acc h2
    have hnotin : p.1 ∉ acc.map Prod.fst := by
      intro hmem
      rw [List.map_append, List.nodup_append] at h2
      exact h2.2.2 hmem (by simp)
    rw [List.foldl_cons, mapSet_of_not_mem acc p.1 p.2 hnotin]
    have h3 := ih (acc ++ [p]) (by
      rw [List.append_assoc, List.singleton_append]
      exact h2)
    rw [h3]
    simp

theorem sortEntries_sorted (m : List (Addr × Int)) :
    List.Sorted rankLe (sortEntries m) :=
  List.sorted_insertionSort rankLe m

theorem sortEntries_perm (m : List (Addr × Int)) : List.Perm (sortEntries m) m :=
  List.perm_insertionSort rankLe m

theorem prune_take_eq (m : List (Addr × Int)) (K N : Nat)
    (hnd : (m.map Prod.fst).Nodup) (hKN : N ≤ K) :
    (sortMapToArray (pruneToTop m K)).take N = (sortMapToArray m).take N := by
  have hnd2 : ((sortEntries m).map Prod.fst).Nodup :=
    (((sortEntries_perm m).map Prod.fst).nodup_iff).mpr hnd
  have hnd3 : (((sortEntries m).take K).map Prod.fst).Nodup := by
    rw [List.map_take]
    exact List.Nodup.sublist (List.take_sublist _ _) hnd2
  have h1 : mapFromPairs ((sortEntries m).take K) = (sortEntries m).take K :=
    mapFromPairs_eq_self _ hnd3
  have hsorted : List.Sorted rankLe ((sortEntries m).take K) :=
    List.Pairwise.sublist (List.take_sublist _ _) (sortEntries_sorted m)
  have h2 : sortEntries ((sortEntries m).take K) = (sortEntries m).take K :=
    hsorted.insertionSort_eq
  unfold sortMapToArray pruneToTop
  rw [h1, h2, List.map_take, List.take_take, Nat.min_eq_left hKN]

/-- C6: pruning a period totals map (with the unique keys every `Map` has)
to keep-count K and then formatting the visible top N changes nothing as
long as N ≤ K; in particular with the source constants K = PRUNE_KEEP = 250
and N = MAX_TOP = 50, and through `formatResponsePayload` itself. -/
theorem C6_prune_preserves_top (m : List (Addr × Int)) (K N : Nat)
    (hnd : (m.map Prod.fst).Nodup) (hKN : N ≤ K) :
    (sortMapToArray (pruneToTop m K)).take N = (sortMapToArray m).take N ∧
    (sortMapToArray (pruneToTop m PRUNE_KEEP)).take MAX_TOP =
      (sortMapToArray m).take MAX_TOP ∧
    (∀ (wk : Int) (lpb : Option Int) (up : JNum),
      (formatResponsePayload
        ⟨some wk, some wk, lpb, [⟨some wk, pruneToTop m PRUNE_KEEP⟩], up⟩).weekly =
      (formatResponsePayload
        ⟨some wk, some wk, lpb, [⟨some wk, m⟩], up⟩).weekly) := by
  refine ⟨prune_take_eq m K N hnd hKN,
    prune_take_eq m PRUNE_KEEP MAX_TOP hnd (by decide), ?_⟩
  intro wk lpb up
  simp only [formatResponsePayload, List.find?]
  simp [prune_take_eq m PRUNE_KEEP MAX_TOP hnd (by decide)]

/-- Witness for C6: a concrete three-entry map with a tie, K = 2, N = 1. -/
theorem C6_prune_preserves_top_witness :
    (sortMapToArray (pruneToTop witMapC6 2)).take 1 =
      (sortMapToArray witMapC6).take 1 :=
  (C6_prune_preserves_top witMapC6 2 1 (by decide) (by decide)).1

/-- C7 (counterexample): the chunker consumes `maxSpan + 1` blocks per full
chunk (`toBlock` is inclusive), so a 25,000-block span against a 10,000
maximum yields chunk widths 10,001 + 10,001 + 4,998, not
10,000 + 10,000 + 5,000 as claimed. -/
theorem C7_counterexample :
    (buildRanges 10000 1 25000).map (fun r => r.2 - r.1 + 1) =
      [10001, 10001, 4998] ∧
    ¬((buildRanges 10000 1 25000).map (fun r => r.2 - r.1 + 1) =
      [10000, 10000, 5000]) := by decide

/-- C7 (amended): the scan issues exactly 3 sub-range fetches of inclusive
widths 10,001, 10,001 and 4,998 blocks, whose union tiles [1, 25000] with
no gaps and no overlaps (each chunk starts one past the previous chunk's
end, the first starts at 1, the last ends at 25000); the adaptive scanner
`fetchLogsRange` produces the same sub-ranges. -/
theorem C7_chunking :
    buildRanges 10000 1 25000 = [(1, 10001), (10002, 20002), (20003, 25000)] ∧
    (buildRanges 10000 1 25000).length = 3 ∧
    (fetchLogsRange quietEnv 1 25000 10000).ranges = buildRanges 10000 1 25000 ∧
    (((buildRanges 10000 1 25000).getD 1 (0, 0)).1 =
      ((buildRanges 10000 1 25000).getD 0 (0, 0)).2 + 1) ∧
    (((buildRanges 10000 1 25000).getD 2 (0, 0)).1 =
      ((buildRanges 10000 1 25000).getD 1 (0, 0)).2 + 1) ∧
    ((buildRanges 10000 1 25000).head?.map Prod.fst = some 1) ∧
    ((buildRanges 10000 1 25000).getLast?.map Prod.snd = some 25000) := by decide

/-! ## Helper lemmas: the makeRpcRotator retry loop. -/

theorem rotV2Go_trans_prefix (oracle : Nat → Except RpcErr Nat) (e : RpcErr)
    (he : transientV2 e = false) :
    ∀ (k rem a : Nat) (lastErr : Option RpcErr) (delays : List Nat),
      k < rem →
      (∀ i, i < k → ∃ ei, oracle (a + i) = .error ei ∧ transientV2 ei = true) →
      oracle (a + k) = .error e →
      rotV2Go oracle rem a lastErr delays =
        ⟨.error e, a + k + 1,
         delays ++ (List.range' a k).map (fun i => 150 + i * 250)⟩ := by
  intro k
  induction k with
  | zero =>
    intro rem a lastErr delays hk _ hor
    obtain ⟨r, rfl⟩ : ∃ r, rem = r + 1 := ⟨rem - 1, by omega⟩
    rw [show a + 0 = a from rfl] at hor
    simp [rotV2Go, hor, he]
  | succ k ih =>
    intro rem a lastErr delays hk hpre hor
    obtain ⟨r, rfl⟩ : ∃ r, rem = r + 1 := ⟨rem - 1, by omega⟩
    obtain ⟨e0, he0, ht0⟩ := hpre 0 (by omega)
    rw [show a + 0 = a from rfl] at he0
    have hrec := ih r (a + 1) (some e0) (delays ++ [150 + a * 250]) (by omega)
      (fun i hi => by
        obtain ⟨ei, hei, hti⟩ := hpre (i + 1) (by omega)
        exact ⟨ei, by rw [show a + 1 + i = a + (i + 1) from by omega]; exact hei,
          hti⟩)
      (by rw [show a + 1 + k = a + (k + 1) from by omega]; exact hor)
    simp only [rotV2Go, he0, ht0, if_pos]
    rw [hrec]
    have hn : a + 1 + k + 1 = a + (k + 1) + 1 := by omega
    have hd : (delays ++ [150 + a * 250]) ++
        (List.range' (a + 1) k).map (fun i => 150 + i * 250) =
        delays ++ (List.range' a (k + 1)).map (fun i => 150 + i * 250) := by
      rw [List.range'_succ, List.map_cons, List.append_assoc, List.singleton_append]
    rw [hn, hd]

theorem rotV2Go_step (oracle : Nat → Except RpcErr Nat) (rem a : Nat)
    (lastErr : Option RpcErr) (delays : List Nat) (e : RpcErr)
    (he : oracle a = .error e) (ht : transientV2 e = true) :
    rotV2Go oracle (rem + 1) a lastErr delays =
      rotV2Go oracle rem (a + 1) (some e) (delays ++ [150 + a * 250]) := by
  conv_lhs => rw [rotV2Go]
  rw [he]
  simp [ht]

theorem rotV2Go_exhaust (oracle : Nat → Except RpcErr Nat) :
    ∀ (rem : Nat), 0 < rem →
      ∀ (a : Nat) (lastErr : Option RpcErr) (delays : List Nat),
        (∀ i, i < rem → ∃ ei, oracle (a + i) = .error ei ∧ transientV2 ei = true) →
        ∃ elast, oracle (a + (rem - 1)) = .error elast ∧
          rotV2Go oracle rem a lastErr delays =
            ⟨.error elast, a + rem,
             delays ++ (List.range' a rem).map (fun i => 150 + i * 250)⟩ := by
  intro rem
  induction rem with
  | zero => intro h; omega
  | succ r ih =>
    intro _ a lastErr delays hpre
    obtain ⟨e0, he0, ht0⟩ := hpre 0 (by omega)
    rw [show a + 0 = a from rfl] at he0
    cases r with
    | zero =>
      refine ⟨e0, by simpa using he0, ?_⟩
      simp [rotV2Go, he0, ht0, List.range'_succ]
    | succ r2 =>
      obtain ⟨elast, hel, heq⟩ := ih (by omega) (a + 1) (some e0)
        (delays ++ [150 + a * 250])
        (fun i hi => by
          obtain ⟨ei, hei, hti⟩ := hpre (i + 1) (by omega)
          exact ⟨ei, by rw [show a + 1 + i = a + (i + 1) from by omega]; exact hei,
            hti⟩)
      refine ⟨elast, ?_, ?_⟩
      · rw [show a + (r2 + 1 + 1 - 1) = a + 1 + (r2 + 1 - 1) from by omega]
        exact hel
      · rw [rotV2Go_step oracle (r2 + 1) a lastErr delays e0 he0 ht0, heq]
        have hn : a + 1 + (r2 + 1) = a + (r2 + 1 + 1) := by omega
        have hd : (delays ++ [150 + a * 250]) ++
            (List.range' (a + 1) (r2 + 1)).map (fun i => 150 + i * 250) =
            delays ++ (List.range' a (r2 + 1 + 1)).map (fun i => 150 + i * 250) := by
          rw [List.range'_succ a (r2 + 1), List.map_cons, List.append_assoc,
            List.singleton_append]
        rw [hn, hd]

/-- C8 (counterexample): in `withRpcRotation` (api/leaderboard.js) an
attempt that fails with a `clientError` classification is retried on the
next endpoint after a fixed 60ms pause: with a client error at attempt 0,
the call goes on to attempt 1 and succeeds (2 attempts used), instead of
not being retried. -/
theorem C8_counterexample :
    transientApi clientErr = false ∧
    rotApi cexOracleC8 6 = ⟨.ok 7, 2, [60]⟩ := by decide

/-- C8 (amended): in `makeRpcRotator` the claimed policy holds: a failure
outside the transient classes (rate-limited, HTTP 5xx/429 text, network or
timeout fault vocabulary) stops the loop at once and is surfaced without a
retry; only transient failures are retried, with strictly growing backoff
`150 + attempt * 250`; and when every attempt up to the bound
`min 6 (pool * 2)` fails transiently, the last error is surfaced.
(`withRpcRotation` in api/leaderboard.js instead retries every failure
class until its `tries` bound — see the counterexample.) -/
theorem C8_rotator_policy (oracle : Nat → Except RpcErr Nat) (pool k : Nat)
    (e : RpcErr) (hk : k < min 6 (pool * 2))
    (hpre : ∀ i, i < k → ∃ ei, oracle i = .error ei ∧ transientV2 ei = true)
    (hce : oracle k = .error e) (hcl : transientV2 e = false) :
    rotV2 oracle pool =
      ⟨.error e, k + 1, (List.range' 0 k).map (fun i => 150 + i * 250)⟩ ∧
    (∀ i j : Nat, i < j → 150 + i * 250 < 150 + j * 250) ∧
    (∀ oracle2 : Nat → Except RpcErr Nat, 0 < min 6 (pool * 2) →
      (∀ i, i < min 6 (pool * 2) →
        ∃ ei, oracle2 i = .error ei ∧ transientV2 ei = true) →
      ∃ elast, oracle2 (min 6 (pool * 2) - 1) = .error elast ∧
        rotV2 oracle2 pool =
          ⟨.error elast, min 6 (pool * 2),
           (List.range' 0 (min 6 (pool * 2))).map (fun i => 150 + i * 250)⟩) := by
  refine ⟨?_, fun i j hij => by omega, ?_⟩
  · have h := rotV2Go_trans_prefix oracle e hcl k (min 6 (pool * 2)) 0 none [] hk
      (fun i hi => by simpa using hpre i hi) (by simpa using hce)
    simpa [rotV2] using h
  · intro oracle2 hpos hall
    obtain ⟨elast, hel, heq⟩ := rotV2Go_exhaust oracle2 (min 6 (pool * 2)) hpos 0
      none [] (fun i hi => by simpa using hall i hi)
    exact ⟨elast, by simpa using hel, by simpa [rotV2] using heq⟩

/-- Witness for C8 (amended): attempt 0 is rate limited (transient),
attempt 1 fails with a client error; the rotator stops after 2 attempts
with one 150ms backoff and surfaces the client error. -/
theorem C8_rotator_policy_witness :
    rotV2 witOracleC8 3 = ⟨.error clientErr, 2, [150]⟩ := by
  have h := (C8_rotator_policy witOracleC8 3 1 clientErr (by decide)
    (fun i hi => ⟨rlErr, by
      have : i = 0 := by omega
      subst this
      exact ⟨rfl, by decide⟩⟩)
    rfl (by decide)).1
  simpa using h

/-- C9: every response the query handler sends carries HTTP status 200 —
along every path, including every caught exception — and when the update
fails fatally the failure is reported inside the body as a failure payload
(the `ok:false` JSON) carrying the error message together with the
remediation hint, never as a non-200 response. -/
theorem C9_always_200 :
    (∀ (refresh : Bool) (env : HandlerEnv), (handler refresh env).status = 200) ∧
    (∀ (env : HandlerEnv) (e : List Char) (os : Option LState) (refresh : Bool),
      env.gotLock = true → env.cacheGet = .ok none → env.stateGet = .ok os →
      env.updateRes = .error e →
      handler refresh env = ⟨200, .failure e remediationHint⟩) := by
  constructor
  · intro refresh env
    unfold handler handlerAfterCache handlerCore handlerCatch
    cases refresh <;> (repeat' split) <;> rfl
  · intro env e os refresh hlock hcache hstate hupd
    cases refresh <;>
      simp [handler, handlerAfterCache, handlerCore, handlerCatch, hlock,
        hcache, hstate, hupd]

/-- Witness for C9: a concrete environment whose update stage throws. -/
theorem C9_always_200_witness :
    handler true cexEnvC9 = ⟨200, .failure ("boom").data remediationHint⟩ ∧
    (handler false cexEnvC9).status = 200 :=
  ⟨C9_always_200.2 cexEnvC9 ("boom").data none true rfl rfl rfl rfl,
   C9_always_200.1 false cexEnvC9⟩

/-! ## Helper lemmas: lowercasing and deserialization. -/

theorem lowerPairs_image_fixed :
    ∀ p ∈ lowerPairs, lowerPairs.find? (fun q => q.1 = p.2) = none := by decide

theorem lowerChar_idem (c : Char) : lowerChar (lowerChar c) = lowerChar c := by
  unfold lowerChar
  cases hf : lowerPairs.find? (fun p => p.1 = c) with
  | none => simp [hf]
  | some p =>
    simp only [hf, Option.map_some', Option.getD_some]
    rw [lowerPairs_image_fixed p (List.mem_of_find?_eq_some hf)]
    simp

theorem lowerStr_idem (s : List Char) : lowerStr (lowerStr s) = lowerStr s := by
  simp [lowerStr, List.map_map, Function.comp, lowerChar_idem]

theorem buildMap_keys (items : List JVal) :
    ∀ (m : List (Addr × Int)), (∀ kv ∈ m, lowerStr kv.1 = kv.1) →
      ∀ m2, buildMap items m = .ok m2 → ∀ kv ∈ m2, lowerStr kv.1 = kv.1 := by
  induction items with
  | nil =>
    intro m hm m2 h2 kv hkv
    simp only [buildMap, Except.ok.injEq] at h2
    subst h2
    exact hm kv hkv
  | cons el rest ih =>
    intro m hm m2 h2 kv hkv
    cases hd : jsDestructure2 el with
    | error e => simp [buildMap, hd] at h2
    | ok ap =>
      obtain ⟨a, p⟩ := ap
      cases hb : jsBigInt p with
      | none => simp [buildMap, hd, hb] at h2
      | some pts =>
        simp only [buildMap, hd, hb] at h2
        refine ih (mapSet m (lowerStr (jsToString a)) pts) ?_ m2 h2 kv hkv
        intro kv2 hkv2
        rcases mapSet_mem _ _ _ kv2 hkv2 with hmm | hmm
        · exact hm kv2 hmm
        · rw [hmm]
          exact lowerStr_idem _

theorem buildWeekEntry_keys (w : JVal) (we : WeekEntry)
    (h : buildWeekEntry w = .ok (some we)) :
    ∀ kv ∈ we.map, lowerStr kv.1 = kv.1 := by
  unfold buildWeekEntry at h
  by_cases hf : (jsFalsy w || jsFalsy (jsField w "weekMs") ||
      jsFalsy (jsField w "entries")) = true
  · simp [hf] at h
  · rw [if_neg hf] at h
    cases hi : jsIterate (jsField w "entries") with
    | error e => rw [hi] at h; simp at h
    | ok items =>
      rw [hi] at h
      cases hb : buildMap items [] with
      | error e => simp [hb] at h
      | ok m =>
        simp only [hb, Except.ok.injEq, Option.some.injEq] at h
        have hk := buildMap_keys items [] (by simp) m hb
        intro kv hkv
        apply hk
        rw [← h] at hkv
        exact hkv

/-- C10: `deserializeState` is total — for every persisted value it returns
either null or a state whose week maps are keyed by lowercased address
strings (the `BigInt`/iteration failures inside the `try` are caught and
mapped to null) — and a null state makes the next update run a full
backfill. -/
theorem C10_deserialize_total :
    (∀ v : JVal, deserializeState v = none ∨
      ∃ st, deserializeState v = some st ∧
        ∀ w ∈ st.weeks, ∀ kv ∈ w.map, lowerStr kv.1 = kv.1) ∧
    (∀ (cur latest : Int) (env : ScanEnv) (t2 : Int),
      incrementalUpdate none cur latest env t2 =
        backfillTwoWeeks cur latest env t2) := by
  constructor
  · intro v
    by_cases hf : jsFalsy v
    · left; simp [deserializeState, hf]
    · cases hc : deserializeStateCore v with
      | error e => left; simp [deserializeState, hf, hc]
      | ok st =>
        right
        refine ⟨st, by simp [deserializeState, hf, hc], ?_⟩
        unfold deserializeStateCore at hc
        cases hA : buildWeekEntry (jsIndex (jsField v "weeks") 0) with
        | error e => simp [hA] at hc
        | ok wA =>
          cases hB : buildWeekEntry (jsIndex (jsField v "weeks") 1) with
          | error e => simp [hA, hB] at hc
          | ok wB =>
            simp only [hA, hB] at hc
            cases hL : (if jsFalsy (jsField v "lastProcessedBlock") then
                some none
              else (jsBigInt (jsField v "lastProcessedBlock")).map some) with
            | none => rw [hL] at hc; simp at hc
            | some lpb =>
              rw [hL] at hc
              simp only [Except.ok.injEq] at hc
              intro w hw
              rw [← hc] at hw
              simp only [List.mem_append] at hw
              rcases hw with hw | hw
              · cases wA with
                | none => simp at hw
                | some wa =>
                  have hwa : w = wa := by simpa using hw
                  subst hwa
                  exact buildWeekEntry_keys _ _ hA
              · cases wB with
                | none => simp at hw
                | some wb =>
                  have hwb : w = wb := by simpa using hw
                  subst hwb
                  exact buildWeekEntry_keys _ _ hB
  · intro cur latest env t2
    rfl

/-- Witness for C10: the null persisted value deserializes to null, and a
null state makes the update take the backfill branch. -/
theorem C10_deserialize_total_witness :
    deserializeState JVal.jnull = none ∧
    incrementalUpdate none 0 100 quietEnv 7 = backfillTwoWeeks 0 100 quietEnv 7 := by
  rcases C10_deserialize_total.1 JVal.jnull with h | ⟨st, hst, _⟩
  · exact ⟨h, C10_deserialize_total.2 0 100 quietEnv 7⟩
  · rw [show deserializeState JVal.jnull = none from rfl] at hst
    cases hst

end LaneRunner
